import Mathlib

/-!
Verification of the PII Detection & Redaction Engine
(repository `pii-detection`, source file `src/streamlit_main.py`).

The repository is a thin Streamlit front-end around the `presidio`
analyzer/anonymizer engines.  The functions `analyze_dataframe`,
`anonymize_dataframe`, `analyze_text`, `anonymize_text` and the
registration methods `PIIDetector.add_custom_regex` /
`PIIDetector.add_custom_whitelist` live in `src/streamlit_main.py` and are
embedded here from the source.  The detection / conflict-resolution /
redaction engine itself (the presidio `AnalyzerEngine.analyze`,
`AnonymizerEngine.anonymize` and `RecognizerRegistry.add_recognizer`
calls) is external library code that is not part of this repository, so
those operations are modelled from the specification (sections 4.1-4.3 of
`spec.md`); every such definition carries a doc comment starting with
`Modelled from the spec:`.

Texts are embedded as `List Char` (Python strings), confidence scores as
`ℚ` (Python floats; every score appearing in the spec and the examples is
a small decimal fraction, which ℚ represents exactly).
-/

/-- A detection result: type label, half-open character range
`[start, stop)`, confidence score.  (`end` is a Lean keyword, hence the
field name `stop`.)  This is the `Span` data type of the spec, and it is
the shape of the presidio `RecognizerResult` objects that
`analyze_text` returns in the source. -/
structure Span where
  type : String
  start : Nat
  stop : Nat
  score : ℚ
deriving DecidableEq

/-- Length of a span's character range. -/
def Span.len (s : Span) : Nat := s.stop - s.start

/-- Two spans overlap when their half-open character ranges intersect. -/
def overlaps (a b : Span) : Bool :=
  decide (a.start < b.stop) && decide (b.start < a.stop)

/-- A span is valid for a text of length `n` when `start < stop ≤ n`
(the Span invariant of the spec's data model). -/
def validSpan (n : Nat) (s : Span) : Prop := s.start < s.stop ∧ s.stop ≤ n

instance (n : Nat) (s : Span) : Decidable (validSpan n s) := by
  unfold validSpan; infer_instance

/-- Modelled from the spec: the conflict-resolution priority order —
`prioLE a b` holds when `a` wins against (or ties with) `b`: higher
score first, ties broken by longer span, remaining ties by earliest
start offset. -/
def prioLE (a b : Span) : Prop :=
  b.score < a.score ∨
    (b.score = a.score ∧ (b.len < a.len ∨ (b.len = a.len ∧ a.start ≤ b.start)))

instance : DecidableRel prioLE := by
  unfold prioLE; infer_instance

/-- Canonical output order of the Analyzer: ascending start offset. -/
def startLE (a b : Span) : Prop := a.start ≤ b.start

instance : DecidableRel startLE := by
  unfold startLE; infer_instance

/-- Work loop of cluster computation: walk the start-sorted spans,
extending the current cluster `cur` while the next span starts before
`hi` (the maximal stop offset seen in `cur`), and closing the cluster
otherwise.  On start-sorted spans the produced groups are exactly the
maximal clusters of mutually overlapping spans. -/
def sweepGo : List Span → List Span → Nat → List (List Span)
  | [], cur, _ => [cur.reverse]
  | s :: rest, cur, hi =>
    if s.start < hi then sweepGo rest (s :: cur) (max hi s.stop)
    else cur.reverse :: sweepGo rest [s] s.stop

/-- Modelled from the spec: the maximal clusters of mutually
overlapping spans (spec §4.2 step 3), computed by sorting by start
offset and sweeping once. -/
def clustersOf (spans : List Span) : List (List Span) :=
  match List.insertionSort startLE spans with
  | [] => []
  | s :: rest => sweepGo rest [s] s.stop

/-- The retained span of one cluster: the first span of the cluster in
priority order — highest score, ties broken by longer span, remaining
ties by earliest start offset. -/
def clusterBest (c : List Span) : Span :=
  (List.insertionSort prioLE c).headD ⟨"", 0, 0, 0⟩

/-- Modelled from the spec: conflict resolution (spec §4.2 step 3) —
for each maximal cluster of mutually overlapping spans exactly one
span is retained, the cluster's priority-best; all other spans of the
cluster are discarded. -/
def resolveConflicts (spans : List Span) : List Span :=
  (clustersOf spans).map clusterBest

/-- Two spans are directly linked within a cluster when both belong to
it and their ranges overlap; chains of such links are what makes a
cluster a connected group of mutually overlapping spans. -/
def linkedIn (c : List Span) (a b : Span) : Prop :=
  a ∈ c ∧ b ∈ c ∧ overlaps a b = true

/-- A pluggable recognizer: a name and a detection capability
`detect(text) -> list[Span]` (spec §3, Recognizer). -/
structure Recognizer where
  name : String
  detect : List Char → List Span

/-- The recognizer registry: ordered collection of recognizers,
keyed by name. -/
abbrev Registry := List Recognizer

/-- Modelled from the spec: `register(recognizer)` adds a recognizer, or
overwrites the entry of the same name when one exists (spec §3:
"ordered mapping from recognizer name to Recognizer instance, keys
unique (re-registering a name overwrites)").  This models the
presidio `registry.add_recognizer` call of the source. -/
def register (reg : Registry) (r : Recognizer) : Registry :=
  if reg.any (fun q => q.name == r.name) then
    reg.map (fun q => if q.name == r.name then r else q)
  else reg ++ [r]

/-- The names held in a registry, in order. -/
def regNames (reg : Registry) : List String := reg.map (fun r => r.name)

/-- Lookup of a registry entry by name (first match). -/
def findByName (reg : Registry) (n : String) : Option Recognizer :=
  reg.find? (fun r => r.name == n)

/-- Apply a whole sequence of registrations, left to right. -/
def registerAll (init : Registry) (l : List Recognizer) : Registry :=
  List.foldl register init l

/-- Holds (as `true`) when the text contains the word `w` starting at
offset `i`. -/
def matchAt (text : List Char) (i : Nat) (w : List Char) : Bool :=
  (text.drop i).take w.length == w

/-- All offsets at which the word `w` occurs in the text. -/
def occurrences (text w : List Char) : List Nat :=
  (List.range (text.length + 1)).filter (fun i => matchAt text i w)

/-- Modelled from the spec: detection of a whitelist recognizer — one
span per occurrence of any listed string, carrying the recognizer's
name as type label and its fixed score (spec §3, Whitelist
recognizer). -/
def whitelistDetect (name : String) (words : List (List Char)) (score : ℚ)
    (text : List Char) : List Span :=
  List.flatten (words.map (fun w =>
    (occurrences text w).map (fun i => ⟨name, i, i + w.length, score⟩)))

/-- A whitelist recognizer (spec §3). -/
def whitelistRecognizer (name : String) (words : List (List Char))
    (score : ℚ) : Recognizer :=
  ⟨name, whitelistDetect name words score⟩

/-- A model-backed recognizer: delegates to the external
entity-detection collaborator, represented by an arbitrary detection
function. -/
def modelBackedRecognizer (name : String)
    (detect : List Char → List Span) : Recognizer :=
  ⟨name, detect⟩

/-- Embedded from `PIIDetector.add_custom_whitelist`
(src/streamlit_main.py lines 68-79): builds a whitelist recognizer
record from the given name, word list and score — with no validation of
any kind — and registers it.  Takes and returns the registry explicitly
(in the source the registry is reached through `self.analyzer.registry`). -/
def add_custom_whitelist (reg : Registry) (name : String)
    (whitelist : List (List Char)) (score : ℚ) : Registry :=
  register reg (whitelistRecognizer name whitelist score)

/-- Embedded from `PIIDetector.add_custom_regex`
(src/streamlit_main.py lines 57-66): builds a pattern recognizer record
from the given name, pattern and score — with no validation of any kind
(in particular the pattern string is never compiled or checked) — and
registers it.  The regex-matching engine itself is external presidio
code, so the detection behaviour of the compiled pattern is taken as a
parameter `regexDetect`. -/
def add_custom_regex (reg : Registry) (name : String) (pattern : String)
    (score : ℚ) (regexDetect : String → ℚ → List Char → List Span) : Registry :=
  register reg ⟨name, regexDetect pattern score⟩

/-- Modelled from the spec: the Analyzer (spec §4.2), standing for the
presidio `AnalyzerEngine.analyze` call in `analyze_text`
(src/streamlit_main.py lines 260-262): run every registered
recognizer, collect the union of the returned spans, resolve conflicts,
and sort the retained spans by start offset ascending. -/
def analyze_text (reg : Registry) (text : List Char) : List Span :=
  List.insertionSort startLE
    (resolveConflicts (List.flatten (reg.map (fun r => r.detect text))))

/-- The Redactor's failure mode (spec §7). -/
inductive RedactError where
  | overlappingSpanError
deriving DecidableEq

/-- The placeholder token substituted for a redacted span. -/
def placeholder (t : String) : List Char := ("[PII:" ++ t ++ "]").data

/-- Modelled from the spec: the Redactor's single pass (spec §4.3) —
walk the span sequence once, copying the untouched text between the
previous span's end (`pos`) and the current span's start verbatim, then
emit the placeholder for the span's range; fail with
`OverlappingSpanError` on a start offset that lies before the current
position (which is exactly a start offset out of ascending order or an
overlapping range). -/
def redactGo (text : List Char) (pos : Nat) :
    List Span → Except RedactError (List Char)
  | [] => .ok (text.drop pos)
  | s :: rest =>
    if s.start < pos then .error .overlappingSpanError
    else
      match redactGo text s.stop rest with
      | .error e => .error e
      | .ok tail =>
        .ok ((text.drop pos).take (s.start - pos) ++ placeholder s.type ++ tail)

/-- Modelled from the spec: the Redactor (spec §4.3), standing for the
presidio `AnonymizerEngine.anonymize` call in `anonymize_text`
(src/streamlit_main.py lines 295-297). -/
def anonymize_text (text : List Char) (findings : List Span) :
    Except RedactError (List Char) :=
  redactGo text 0 findings

/-- The gap slices of a text around a span sequence: the characters of
the text strictly before the first span, between consecutive spans, and
after the last span — each one a contiguous slice of the original text,
taken by absolute offsets. -/
def gapsOf (text : List Char) (spans : List Span) : List (List Char) :=
  List.zipWith (fun a b => (text.take b).drop a)
    (0 :: spans.map (fun s => s.stop))
    (spans.map (fun s => s.start) ++ [text.length])

/-- Alternate the elements of two lists, starting with the first. -/
def interleave : List (List Char) → List (List Char) → List (List Char)
  | [], ys => ys
  | x :: xs, [] => x :: xs
  | x :: xs, y :: ys => x :: y :: interleave xs ys

/-- The redacted output as the claim describes it: the untouched gap
slices of the original text, in order, with each span's character range
replaced by its placeholder token. -/
def renderRedacted (text : List Char) (spans : List Span) : List Char :=
  List.flatten (interleave (gapsOf text spans)
    (spans.map (fun s => placeholder s.type)))

/-- A table cell: `none` models a missing value (`NaN`), `some s` a value
whose Python string representation is `s`. -/
abbrev Cell := Option (List Char)

/-- A pandas `DataFrame`: ordered column names and a list of rows, each
row holding one cell per column. -/
structure DataFrame where
  columns : List String
  rows : List (List Cell)
deriving DecidableEq

/-- The cells of column number `j`, top to bottom (`df[col]`). -/
def DataFrame.colCells (df : DataFrame) (j : Nat) : List Cell :=
  df.rows.map (fun r => r.getD j none)

/-- Embeds `Series.dropna()`: the non-missing values of a column, in order. -/
def dropna (cells : List Cell) : List (List Char) := cells.filterMap id

/-- A row of the findings table built by `analyze_dataframe`
(src/streamlit_main.py lines 246-255): the dict keys `Column`, `Row`,
`PII_Type`, `Text`, `Score`, `Start`, `End`. -/
structure Finding where
  Column : String
  Row : Nat
  PII_Type : String
  Text : List Char
  Score : ℚ
  Start : Nat
  End : Nat
deriving DecidableEq

/-- Embedded from `analyze_dataframe` (src/streamlit_main.py lines
234-257): for every column, enumerate the column's values after
`dropna()` — so the emitted `Row` is the value's position among the
column's non-missing cells, not its row index in `df` — analyze each
value's text, and append one findings row per detected span, with
`Text` the slice `text[start:end]`.  (The source's
`if pd.isna(value): continue` guard sits after `dropna()` and can never
fire, so it contributes no behaviour.)  The per-cell analysis
`detector.analyzer.analyze(text, entities=[], language='en')` is the
external presidio engine, taken here as the parameter `analyzeFn`. -/
def analyze_dataframe (analyzeFn : List Char → List Span) (df : DataFrame) :
    List Finding :=
  List.flatten ((List.range df.columns.length).map (fun j =>
    let colName := df.columns.getD j ""
    List.flatten ((dropna (df.colCells j)).enum.map (fun p =>
      (analyzeFn p.2).map (fun f =>
        ⟨colName, p.1, f.type, (p.2.take f.stop).drop f.start,
          f.score, f.start, f.stop⟩)))))

/-- The Python runtime errors the embedded `anonymize_dataframe` can
raise. -/
inductive PyError where
  | nameError
  | indexError
  | keyError
deriving DecidableEq

/-- The names visible inside `anonymize_dataframe`: the module-level
bindings of `src/streamlit_main.py` (the imports of lines 1-12 and the
module-level `class` / `def` / assignment statements), the function's
own local variables, and the builtin `str` it calls.  The name
`RecognizerResult` is not among them: it is neither imported nor
defined anywhere in the module. -/
def anonymizeDataframeScope : List String :=
  ["st", "pd", "io", "AnalyzerEngine", "AnonymizerEngine",
   "NlpEngineProvider", "Dict", "List", "Tuple", "re", "PyPDFLoader",
   "CSVLoader", "UnstructuredFileLoader", "RecursiveCharacterTextSplitter",
   "tempfile", "os", "PIIDetector", "detector", "main", "load_file",
   "analyze_dataframe", "analyze_text", "anonymize_dataframe",
   "anonymize_text", "display_results",
   "df", "results_df", "df_safe", "row", "col", "idx", "start", "end",
   "pii_type", "original_text", "recognizer_result", "redacted", "str"]

/-- Python evaluation of a bare identifier: `NameError` when the name is
bound nowhere in the enclosing scopes. -/
def pythonName (scope : List String) (n : String) : Except PyError Unit :=
  if scope.contains n then .ok () else .error .nameError

/-- Embeds `df_safe.iloc[idx]`: positional row access; `IndexError` when
the position is out of range. -/
def iloc (df : DataFrame) (idx : Nat) : Except PyError (List Cell) :=
  match df.rows[idx]? with
  | some r => .ok r
  | none => .error .indexError

/-- Embeds `row[col]` on a pandas row: the value under the named column;
`KeyError` when the column does not exist. -/
def seriesGet (columns : List String) (row : List Cell) (col : String) :
    Except PyError Cell :=
  match columns.findIdx? (fun c => c == col) with
  | some j => .ok (row.getD j none)
  | none => .error .keyError

/-- One iteration of the loop body of `anonymize_dataframe`
(src/streamlit_main.py lines 268-291): read the finding's fields,
evaluate `str(df_safe.iloc[idx][col])`, then evaluate the identifier
`RecognizerResult` in order to construct the recognizer-result object —
the name resolves nowhere, so the iteration raises `NameError` here.
Everything after that point (constructing the object, the
`detector.anonymizer.anonymize` call, writing the redacted text back
into the cell) is unreachable; it is taken as the parameter `rest`, so
no behaviour is invented for it. -/
def anonymizeDataframeStep
    (rest : DataFrame → Finding → Except PyError DataFrame)
    (columns : List String) (dfSafe : DataFrame) (f : Finding) :
    Except PyError DataFrame :=
  match iloc dfSafe f.Row with
  | .error e => .error e
  | .ok row =>
    match seriesGet columns row f.Column with
    | .error e => .error e
    | .ok _cell =>
      match pythonName anonymizeDataframeScope "RecognizerResult" with
      | .error e => .error e
      | .ok _ => rest dfSafe f

/-- The `for _, row in results_df.iterrows():` loop of
`anonymize_dataframe`, one finding at a time. -/
def anonymizeDataframeGo
    (rest : DataFrame → Finding → Except PyError DataFrame)
    (columns : List String) :
    DataFrame → List Finding → Except PyError DataFrame
  | dfSafe, [] => .ok dfSafe
  | dfSafe, f :: fs =>
    match anonymizeDataframeStep rest columns dfSafe f with
    | .error e => .error e
    | .ok dfSafe2 => anonymizeDataframeGo rest columns dfSafe2 fs

/-- Embedded from `anonymize_dataframe` (src/streamlit_main.py lines
264-293): start from `df_safe = df.copy()` (value semantics here, so
the copy is the argument itself and the caller's table is never
mutated), then run the loop over the findings table and return
`df_safe`. -/
def anonymize_dataframe
    (rest : DataFrame → Finding → Except PyError DataFrame)
    (df : DataFrame) (results : List Finding) : Except PyError DataFrame :=
  anonymizeDataframeGo rest df.columns df results

/-- Characters of a string literal. -/
def chars (s : String) : List Char := s.data

instance : IsTotal Span startLE :=
  ⟨fun a b => Nat.le_total a.start b.start⟩

instance : IsTrans Span startLE :=
  ⟨fun _ _ _ hab hbc => Nat.le_trans hab hbc⟩

instance : IsTotal Span prioLE := by
  constructor
  intro a b
  unfold prioLE
  rcases lt_trichotomy a.score b.score with h | h | h
  · exact Or.inr (Or.inl h)
  · rcases lt_trichotomy a.len b.len with h2 | h2 | h2
    · exact Or.inr (Or.inr ⟨h, Or.inl h2⟩)
    · rcases Nat.le_total a.start b.start with h3 | h3
      · exact Or.inl (Or.inr ⟨h.symm, Or.inr ⟨h2.symm, h3⟩⟩)
      · exact Or.inr (Or.inr ⟨h, Or.inr ⟨h2, h3⟩⟩)
    · exact Or.inl (Or.inr ⟨h.symm, Or.inl h2⟩)
  · exact Or.inl (Or.inl h)

instance : IsTrans Span prioLE := by
  constructor
  intro a b c hab hbc
  unfold prioLE at hab hbc ⊢
  rcases hab with h1 | ⟨e1, h1⟩ <;> rcases hbc with h2 | ⟨e2, h2⟩
  · exact Or.inl (lt_trans h2 h1)
  · exact Or.inl (e2 ▸ h1)
  · exact Or.inl (e1 ▸ h2)
  · refine Or.inr ⟨e2.trans e1, ?_⟩
    rcases h1 with g1 | ⟨f1, g1⟩ <;> rcases h2 with g2 | ⟨f2, g2⟩
    · exact Or.inl (Nat.lt_trans g2 g1)
    · exact Or.inl (f2 ▸ g1)
    · exact Or.inl (f1 ▸ g2)
    · exact Or.inr ⟨f2.trans f1, Nat.le_trans g1 g2⟩

theorem overlaps_symm (a b : Span) : overlaps a b = overlaps b a := by
  unfold overlaps
  rw [Bool.and_comm]

theorem overlaps_eq_false_of_sep {a b : Span} (h : a.stop ≤ b.start) :
    overlaps a b = false := by
  simp only [overlaps, Bool.and_eq_false_iff, decide_eq_false_iff_not]
  omega

/-- The priority order is reflexive. -/
theorem prioLE_refl (a : Span) : prioLE a a :=
  Or.inr ⟨rfl, Or.inr ⟨rfl, le_refl _⟩⟩

/-- Every span of a sweep cluster was in the open cluster or in the
remaining input. -/
theorem sweepGo_mem :
    ∀ (rest cur : List Span) (hi : Nat) (c : List Span),
      c ∈ sweepGo rest cur hi → ∀ x ∈ c, x ∈ cur ∨ x ∈ rest := by
  intro rest
  induction rest with
  | nil =>
    intro cur hi c hc x hx
    have hc2 : c = cur.reverse := by simpa [sweepGo] using hc
    subst hc2
    exact Or.inl (List.mem_reverse.1 hx)
  | cons s rest ih =>
    intro cur hi c hc x hx
    unfold sweepGo at hc
    by_cases hlt : s.start < hi
    · rw [if_pos hlt] at hc
      rcases ih (s :: cur) (max hi s.stop) c hc x hx with h | h
      · rcases List.mem_cons.1 h with rfl | h2
        · exact Or.inr (List.mem_cons_self _ _)
        · exact Or.inl h2
      · exact Or.inr (List.mem_cons_of_mem _ h)
    · rw [if_neg hlt] at hc
      rcases List.mem_cons.1 hc with rfl | hc2
      · exact Or.inl (List.mem_reverse.1 hx)
      · rcases ih [s] s.stop c hc2 x hx with h | h
        · have hxs : x = s := by simpa using h
          subst hxs
          exact Or.inr (List.mem_cons_self _ _)
        · exact Or.inr (List.mem_cons_of_mem _ h)

/-- Sweep clusters are never empty. -/
theorem sweepGo_ne_nil :
    ∀ (rest cur : List Span) (hi : Nat), cur ≠ [] →
      ∀ c ∈ sweepGo rest cur hi, c ≠ [] := by
  intro rest
  induction rest with
  | nil =>
    intro cur hi hcur c hc
    have hc2 : c = cur.reverse := by simpa [sweepGo] using hc
    subst hc2
    simpa using hcur
  | cons s rest ih =>
    intro cur hi hcur c hc
    unfold sweepGo at hc
    by_cases hlt : s.start < hi
    · rw [if_pos hlt] at hc
      exact ih (s :: cur) _ (by simp) c hc
    · rw [if_neg hlt] at hc
      rcases List.mem_cons.1 hc with rfl | hc2
      · simpa using hcur
      · exact ih [s] _ (by simp) c hc2

/-- Sweep clusters are totally separated: every span of an earlier
cluster stops at or before every span of a later cluster starts. -/
theorem sweepGo_sep :
    ∀ (rest cur : List Span) (hi : Nat),
      (∀ x ∈ cur, x.stop ≤ hi) →
      rest.Pairwise startLE →
      (sweepGo rest cur hi).Pairwise
        (fun c d => ∀ x ∈ c, ∀ y ∈ d, x.stop ≤ y.start) := by
  intro rest
  induction rest with
  | nil =>
    intro cur hi _ _
    simp [sweepGo]
  | cons s rest ih =>
    intro cur hi hcur hsorted
    have hs_head : ∀ y ∈ rest, s.start ≤ y.start :=
      (List.pairwise_cons.1 hsorted).1
    have hs_tail := (List.pairwise_cons.1 hsorted).2
    unfold sweepGo
    by_cases hlt : s.start < hi
    · rw [if_pos hlt]
      refine ih (s :: cur) (max hi s.stop) ?_ hs_tail
      intro x hx
      rcases List.mem_cons.1 hx with rfl | hx2
      · exact Nat.le_max_right _ _
      · exact (hcur x hx2).trans (Nat.le_max_left _ _)
    · rw [if_neg hlt]
      have hge : hi ≤ s.start := Nat.not_lt.1 hlt
      refine List.Pairwise.cons ?_ (ih [s] s.stop (by simp) hs_tail)
      intro d hd x hx y hy
      have hx2 : x ∈ cur := List.mem_reverse.1 hx
      have hy2 : y ∈ [s] ∨ y ∈ rest := sweepGo_mem rest [s] s.stop d hd y hy
      have hy3 : s.start ≤ y.start := by
        rcases hy2 with h | h
        · have hys : y = s := by simpa using h
          subst hys
          exact le_refl _
        · exact hs_head y h
      have := hcur x hx2
      omega

/-- The sweep clusters hold exactly the input spans. -/
theorem sweepGo_flatten_perm :
    ∀ (rest cur : List Span) (hi : Nat),
      (sweepGo rest cur hi).flatten.Perm (cur ++ rest) := by
  intro rest
  induction rest with
  | nil =>
    intro cur hi
    simp [sweepGo]
  | cons s rest ih =>
    intro cur hi
    unfold sweepGo
    by_cases hlt : s.start < hi
    · rw [if_pos hlt]
      exact (ih (s :: cur) (max hi s.stop)).trans List.perm_middle.symm
    · rw [if_neg hlt]
      rw [List.flatten_cons]
      exact List.Perm.append (List.reverse_perm cur) (ih [s] s.stop)

/-- Every sweep cluster of valid, start-sorted spans is connected: any
two of its members are linked by a chain of overlaps held within the
cluster. -/
theorem sweepGo_connected :
    ∀ (rest cur : List Span) (hi : Nat),
      (∃ t ∈ cur, t.stop = hi) →
      (∀ a ∈ cur, ∀ b ∈ cur, Relation.ReflTransGen (linkedIn cur) a b) →
      (∀ x ∈ cur, ∀ y ∈ rest, x.start ≤ y.start) →
      rest.Pairwise startLE →
      (∀ y ∈ rest, y.start < y.stop) →
      ∀ c ∈ sweepGo rest cur hi, ∀ a ∈ c, ∀ b ∈ c,
        Relation.ReflTransGen (linkedIn c) a b := by
  intro rest
  induction rest with
  | nil =>
    intro cur hi _ hconn _ _ _ c hc a ha b hb
    have hc2 : c = cur.reverse := by simpa [sweepGo] using hc
    subst hc2
    refine (hconn a (List.mem_reverse.1 ha) b (List.mem_reverse.1 hb)).mono ?_
    intro x y hxy
    exact ⟨List.mem_reverse.2 hxy.1, List.mem_reverse.2 hxy.2.1, hxy.2.2⟩
  | cons s rest ih =>
    intro cur hi hach hconn hcross hsorted hval
    have hs_head : ∀ y ∈ rest, s.start ≤ y.start :=
      (List.pairwise_cons.1 hsorted).1
    have hs_tail : rest.Pairwise startLE :=
      (List.pairwise_cons.1 hsorted).2
    have hval_s : s.start < s.stop := hval s (List.mem_cons_self _ _)
    have hval_t : ∀ y ∈ rest, y.start < y.stop :=
      fun y hy => hval y (List.mem_cons_of_mem _ hy)
    intro c hc
    unfold sweepGo at hc
    by_cases hlt : s.start < hi
    · rw [if_pos hlt] at hc
      rcases hach with ⟨t, ht, htop⟩
      have hts : overlaps t s = true := by
        simp only [overlaps, Bool.and_eq_true, decide_eq_true_eq]
        have h1 := hcross t ht s (List.mem_cons_self _ _)
        omega
      have hlift : ∀ a ∈ cur, ∀ b ∈ cur,
          Relation.ReflTransGen (linkedIn (s :: cur)) a b := by
        intro a ha b hb
        refine (hconn a ha b hb).mono ?_
        intro x y hxy
        exact ⟨List.mem_cons_of_mem _ hxy.1,
          List.mem_cons_of_mem _ hxy.2.1, hxy.2.2⟩
      have hstep_ts : linkedIn (s :: cur) t s :=
        ⟨List.mem_cons_of_mem _ ht, List.mem_cons_self _ _, hts⟩
      have hstep_st : linkedIn (s :: cur) s t :=
        ⟨List.mem_cons_self _ _, List.mem_cons_of_mem _ ht,
          (overlaps_symm s t).trans hts⟩
      have hconn2 : ∀ a ∈ s :: cur, ∀ b ∈ s :: cur,
          Relation.ReflTransGen (linkedIn (s :: cur)) a b := by
        intro a ha b hb
        rcases List.mem_cons.1 ha with rfl | ha2 <;>
          rcases List.mem_cons.1 hb with rfl | hb2
        · exact Relation.ReflTransGen.refl
        · exact (Relation.ReflTransGen.single hstep_st).trans (hlift t ht b hb2)
        · exact (hlift a ha2 t ht).trans (Relation.ReflTransGen.single hstep_ts)
        · exact hlift a ha2 b hb2
      refine ih (s :: cur) (max hi s.stop) ?_ hconn2 ?_ hs_tail hval_t c hc
      · rcases Nat.le_total hi s.stop with h | h
        · exact ⟨s, List.mem_cons_self _ _, (Nat.max_eq_right h).symm⟩
        · exact ⟨t, List.mem_cons_of_mem _ ht,
            htop.trans (Nat.max_eq_left h).symm⟩
      · intro x hx y hy
        rcases List.mem_cons.1 hx with rfl | hx2
        · exact hs_head y hy
        · exact hcross x hx2 y (List.mem_cons_of_mem _ hy)
    · rw [if_neg hlt] at hc
      rcases List.mem_cons.1 hc with rfl | hc2
      · intro a ha b hb
        refine (hconn a (List.mem_reverse.1 ha) b (List.mem_reverse.1 hb)).mono ?_
        intro x y hxy
        exact ⟨List.mem_reverse.2 hxy.1, List.mem_reverse.2 hxy.2.1, hxy.2.2⟩
      · refine ih [s] s.stop ⟨s, List.mem_cons_self _ _, rfl⟩ ?_ ?_
          hs_tail hval_t c hc2
        · intro a ha b hb
          have ha2 : a = s := by simpa using ha
          have hb2 : b = s := by simpa using hb
          subst ha2
          subst hb2
          exact Relation.ReflTransGen.refl
        · intro x hx y hy
          have hx2 : x = s := by simpa using hx
          subst hx2
          exact hs_head y hy

/-- Every span of every cluster came from the analyzed span list. -/
theorem clustersOf_mem {spans c : List Span}
    (hc : c ∈ clustersOf spans) : ∀ x ∈ c, x ∈ spans := by
  intro x hx
  have hgoal : x ∈ List.insertionSort startLE spans → x ∈ spans :=
    fun h => (List.mem_insertionSort startLE).1 h
  refine hgoal ?_
  unfold clustersOf at hc
  generalize hs : List.insertionSort startLE spans = L at hc ⊢
  cases L with
  | nil => cases hc
  | cons s rest =>
    rcases sweepGo_mem rest [s] s.stop c hc x hx with h | h
    · have hxs : x = s := by simpa using h
      subst hxs
      exact List.mem_cons_self _ _
    · exact List.mem_cons_of_mem _ h

/-- Clusters are never empty. -/
theorem clustersOf_ne_nil (spans : List Span) :
    ∀ c ∈ clustersOf spans, c ≠ [] := by
  unfold clustersOf
  generalize List.insertionSort startLE spans = L
  cases L with
  | nil => intro c hc; cases hc
  | cons s rest => exact sweepGo_ne_nil rest [s] s.stop (by simp)

/-- Distinct clusters are totally separated. -/
theorem clustersOf_sep (spans : List Span) :
    (clustersOf spans).Pairwise
      (fun c d => ∀ x ∈ c, ∀ y ∈ d, x.stop ≤ y.start) := by
  have hsorted := List.sorted_insertionSort startLE spans
  unfold clustersOf
  generalize hs : List.insertionSort startLE spans = L at hsorted ⊢
  cases L with
  | nil => simp
  | cons s rest =>
    refine sweepGo_sep rest [s] s.stop ?_ (List.pairwise_cons.1 hsorted).2
    intro x hx
    have hxs : x = s := by simpa using hx
    subst hxs
    exact le_refl _

/-- Spans of distinct clusters never overlap (so each cluster is a
MAXIMAL cluster: nothing outside it overlaps anything inside it). -/
theorem clustersOf_sep_overlap (spans : List Span) :
    (clustersOf spans).Pairwise
      (fun c d => ∀ x ∈ c, ∀ y ∈ d, overlaps x y = false) := by
  refine (clustersOf_sep spans).imp ?_
  intro c d h x hx y hy
  exact overlaps_eq_false_of_sep (h x hx y hy)

/-- Each cluster of valid spans is connected: any two of its members
are linked by a chain of overlaps within the cluster. -/
theorem clustersOf_connected {spans : List Span}
    (hv : ∀ s ∈ spans, s.start < s.stop) :
    ∀ c ∈ clustersOf spans, ∀ a ∈ c, ∀ b ∈ c,
      Relation.ReflTransGen (linkedIn c) a b := by
  have hv2 : ∀ s ∈ List.insertionSort startLE spans, s.start < s.stop :=
    fun s hsm => hv s ((List.mem_insertionSort startLE).1 hsm)
  have hsorted := List.sorted_insertionSort startLE spans
  unfold clustersOf
  generalize hs : List.insertionSort startLE spans = L at hv2 hsorted ⊢
  cases L with
  | nil => intro c hc; cases hc
  | cons s rest =>
    refine sweepGo_connected rest [s] s.stop
      ⟨s, List.mem_cons_self _ _, rfl⟩ ?_ ?_
      (List.pairwise_cons.1 hsorted).2
      (fun y hy => hv2 y (List.mem_cons_of_mem _ hy))
    · intro a ha b hb
      have ha2 : a = s := by simpa using ha
      have hb2 : b = s := by simpa using hb
      subst ha2
      subst hb2
      exact Relation.ReflTransGen.refl
    · intro x hx y hy
      have hx2 : x = s := by simpa using hx
      subst hx2
      exact (List.pairwise_cons.1 hsorted).1 y hy

/-- The clusters partition the analyzed spans. -/
theorem clustersOf_flatten_perm (spans : List Span) :
    (clustersOf spans).flatten.Perm spans := by
  refine List.Perm.trans ?_ (List.perm_insertionSort startLE spans)
  unfold clustersOf
  generalize List.insertionSort startLE spans = L
  cases L with
  | nil => simp
  | cons s rest => simpa using sweepGo_flatten_perm rest [s] s.stop

/-- The retained span of a nonempty cluster belongs to it. -/
theorem clusterBest_mem {c : List Span} (h : c ≠ []) : clusterBest c ∈ c := by
  refine (List.mem_insertionSort prioLE).1 ?_
  unfold clusterBest
  have hperm := List.perm_insertionSort prioLE c
  generalize hs : List.insertionSort prioLE c = L at hperm ⊢
  cases L with
  | nil => exact absurd (List.Perm.eq_nil hperm.symm) h
  | cons b l => simp

/-- The retained span of a cluster beats or ties every member of the
cluster: highest score, ties broken by longer span, remaining ties by
earliest start offset. -/
theorem clusterBest_le {c : List Span} : ∀ x ∈ c, prioLE (clusterBest c) x := by
  intro x hx
  have hx2 : x ∈ List.insertionSort prioLE c :=
    (List.mem_insertionSort prioLE).2 hx
  have hsorted := List.sorted_insertionSort prioLE c
  unfold clusterBest
  generalize hs : List.insertionSort prioLE c = L at hx2 hsorted
  cases L with
  | nil => cases hx2
  | cons b l =>
    rcases List.mem_cons.1 hx2 with rfl | hxl
    · simpa using prioLE_refl x
    · simpa using (List.pairwise_cons.1 hsorted).1 x hxl

/-- Conflict resolution returns a subset of its input. -/
theorem resolveConflicts_mem {spans : List Span} {x : Span}
    (hx : x ∈ resolveConflicts spans) : x ∈ spans := by
  unfold resolveConflicts at hx
  rcases List.mem_map.1 hx with ⟨c, hc, rfl⟩
  exact clustersOf_mem hc _ (clusterBest_mem (clustersOf_ne_nil spans c hc))

/-- Conflict resolution returns pairwise non-overlapping spans. -/
theorem resolveConflicts_pairwise (spans : List Span) :
    (resolveConflicts spans).Pairwise (fun a b => overlaps a b = false) := by
  unfold resolveConflicts
  rw [List.pairwise_map]
  refine List.Pairwise.imp_of_mem ?_ (clustersOf_sep spans)
  intro c d hc hd h
  exact overlaps_eq_false_of_sep
    (h _ (clusterBest_mem (clustersOf_ne_nil spans c hc)) _
      (clusterBest_mem (clustersOf_ne_nil spans d hd)))

/-- The Analyzer's output is sorted ascending by start offset. -/
theorem analyze_sorted (reg : Registry) (text : List Char) :
    (analyze_text reg text).Pairwise (fun a b => a.start ≤ b.start) :=
  List.sorted_insertionSort startLE _

/-- The Analyzer's output is pairwise non-overlapping. -/
theorem analyze_pairwise (reg : Registry) (text : List Char) :
    (analyze_text reg text).Pairwise (fun a b => overlaps a b = false) := by
  unfold analyze_text
  have hperm := List.perm_insertionSort startLE
    (resolveConflicts (List.flatten (reg.map (fun r => r.detect text))))
  have hsym : ∀ {x y : Span},
      overlaps x y = false → overlaps y x = false :=
    fun {x y} h => (overlaps_symm y x).trans h
  exact (hperm.pairwise_iff hsym).2 (resolveConflicts_pairwise _)

/-- Every span the Analyzer returns was produced by some registered
recognizer. -/
theorem analyze_mem {reg : Registry} {text : List Char} {x : Span}
    (hx : x ∈ analyze_text reg text) :
    ∃ r ∈ reg, x ∈ r.detect text := by
  unfold analyze_text at hx
  have hx2 : x ∈ resolveConflicts (List.flatten (reg.map (fun r => r.detect text))) :=
    (List.mem_insertionSort startLE).1 hx
  have hx3 := resolveConflicts_mem hx2
  rcases List.mem_flatten.1 hx3 with ⟨l, hl, hxl⟩
  rcases List.mem_map.1 hl with ⟨r, hr, rfl⟩
  exact ⟨r, hr, hxl⟩

/-- The Redactor's walk succeeds from position `pos` exactly when every
span starts at or after the previous span's end. -/
def ChainOK (pos : Nat) : List Span → Prop
  | [] => True
  | s :: rest => pos ≤ s.start ∧ ChainOK s.stop rest

/-- The gap slices of a text around a span sequence, the walk having
already consumed the first `pos` characters. -/
def gapsFrom (text : List Char) (pos : Nat) (spans : List Span) :
    List (List Char) :=
  List.zipWith (fun a b => (text.take b).drop a)
    (pos :: spans.map (fun s => s.stop))
    (spans.map (fun s => s.start) ++ [text.length])

/-- The redacted tail from position `pos` on, as absolute-offset slices
interleaved with placeholders. -/
def renderFrom (text : List Char) (pos : Nat) (spans : List Span) :
    List Char :=
  List.flatten (interleave (gapsFrom text pos spans)
    (spans.map (fun s => placeholder s.type)))

theorem gapsOf_eq_gapsFrom (text : List Char) (spans : List Span) :
    gapsOf text spans = gapsFrom text 0 spans := rfl

theorem renderRedacted_eq_renderFrom (text : List Char) (spans : List Span) :
    renderRedacted text spans = renderFrom text 0 spans := rfl

theorem renderFrom_nil (text : List Char) (pos : Nat) :
    renderFrom text pos [] = text.drop pos := by
  simp [renderFrom, gapsFrom, interleave]

theorem renderFrom_cons (text : List Char) (pos : Nat) (s : Span)
    (rest : List Span) :
    renderFrom text pos (s :: rest) =
      (text.take s.start).drop pos ++ placeholder s.type ++
        renderFrom text s.stop rest := by
  simp [renderFrom, gapsFrom, interleave, List.append_assoc]

/-- Under the chain precondition the Redactor succeeds and produces the
gap slices of the original text interleaved with the placeholders. -/
theorem redactGo_renders (text : List Char) :
    ∀ (spans : List Span) (pos : Nat), ChainOK pos spans →
      redactGo text pos spans = .ok (renderFrom text pos spans) := by
  intro spans
  induction spans with
  | nil =>
    intro pos _
    rw [renderFrom_nil]
    rfl
  | cons s rest ih =>
    intro pos h
    rcases h with ⟨hpos, hrest⟩
    unfold redactGo
    rw [if_neg (Nat.not_lt.2 hpos), ih s.stop hrest, renderFrom_cons]
    have harith : pos + (s.start - pos) = s.start := by omega
    have hslice : (text.drop pos).take (s.start - pos) =
        (text.take s.start).drop pos := by
      rw [List.take_drop, harith]
    rw [hslice]

/-- If the Redactor succeeds, the chain precondition held. -/
theorem redactGo_ok_chainOK (text : List Char) :
    ∀ (spans : List Span) (pos : Nat) (out : List Char),
      redactGo text pos spans = .ok out → ChainOK pos spans := by
  intro spans
  induction spans with
  | nil => intro pos out _; trivial
  | cons s rest ih =>
    intro pos out h
    unfold redactGo at h
    by_cases hlt : s.start < pos
    · rw [if_pos hlt] at h
      cases h
    · rw [if_neg hlt] at h
      cases htail : redactGo text s.stop rest with
      | error e => rw [htail] at h; cases h
      | ok tail => exact ⟨by omega, ih s.stop tail htail⟩

/-- From the chain precondition, every remaining span starts at or
after the current position (spans being non-degenerate). -/
theorem chainOK_le :
    ∀ (spans : List Span) (pos : Nat), ChainOK pos spans →
      (∀ s ∈ spans, s.start < s.stop) → ∀ x ∈ spans, pos ≤ x.start := by
  intro spans
  induction spans with
  | nil => intro pos _ _ x hx; cases hx
  | cons s rest ih =>
    intro pos h hval x hx
    rcases h with ⟨hpos, hrest⟩
    rcases List.mem_cons.1 hx with rfl | hx
    · exact hpos
    · have hs : s.start < s.stop := hval s (List.mem_cons_self _ _)
      have := ih s.stop hrest (fun y hy => hval y (List.mem_cons_of_mem _ hy)) x hx
      omega

/-- The chain precondition separates the spans pairwise. -/
theorem chainOK_pairwise_sep :
    ∀ (spans : List Span) (pos : Nat), ChainOK pos spans →
      (∀ s ∈ spans, s.start < s.stop) →
      spans.Pairwise (fun a b => a.stop ≤ b.start) := by
  intro spans
  induction spans with
  | nil => intro pos _ _; exact List.Pairwise.nil
  | cons s rest ih =>
    intro pos h hval
    rcases h with ⟨hpos, hrest⟩
    have hvrest : ∀ y ∈ rest, y.start < y.stop :=
      fun y hy => hval y (List.mem_cons_of_mem _ hy)
    refine List.Pairwise.cons ?_ (ih s.stop hrest hvrest)
    intro x hx
    exact chainOK_le rest s.stop hrest hvrest x hx

/-- Sorted, pairwise non-overlapping, non-degenerate spans satisfy the
chain precondition from any position at or before the first start. -/
theorem chainOK_of_sorted :
    ∀ (spans : List Span) (pos : Nat),
      spans.Pairwise (fun a b => a.start ≤ b.start) →
      spans.Pairwise (fun a b => overlaps a b = false) →
      (∀ s ∈ spans, s.start < s.stop) →
      (∀ s ∈ spans, pos ≤ s.start) →
      ChainOK pos spans := by
  intro spans
  induction spans with
  | nil => intro pos _ _ _ _; trivial
  | cons s rest ih =>
    intro pos hsort hno hval hpos
    refine ⟨hpos s (List.mem_cons_self _ _), ?_⟩
    rcases List.pairwise_cons.1 hno with ⟨hhead, htail⟩
    rcases List.pairwise_cons.1 hsort with ⟨hshead, hstail⟩
    refine ih s.stop hstail htail
      (fun y hy => hval y (List.mem_cons_of_mem _ hy)) ?_
    intro y hy
    have hnov : overlaps s y = false := hhead y hy
    have hle : s.start ≤ y.start := hshead y hy
    have h1 : s.start < s.stop := hval s (List.mem_cons_self _ _)
    have h2 : y.start < y.stop := hval y (List.mem_cons_of_mem _ hy)
    simp only [overlaps, Bool.and_eq_false_iff, decide_eq_false_iff_not] at hnov
    rcases hnov with h | h <;> omega

theorem find_map_replace_self (reg : Registry) (r : Recognizer) :
    reg.any (fun q => q.name == r.name) = true →
    (reg.map (fun q => if q.name == r.name then r else q)).find?
        (fun q => q.name == r.name) = some r := by
  induction reg with
  | nil => intro h; cases h
  | cons q reg ih =>
    intro h
    rw [List.map_cons, List.find?_cons]
    by_cases hq : q.name = r.name
    · rw [if_pos (beq_iff_eq.2 hq)]
      simp
    · rw [if_neg (by simp [hq])]
      have hqf : (q.name == r.name) = false := by simp [hq]
      rw [hqf]
      simp only []
      refine ih ?_
      rw [List.any_cons, hqf] at h
      simpa using h

theorem find_map_replace_other (reg : Registry) (r : Recognizer) (n : String)
    (hn : n ≠ r.name) :
    (reg.map (fun q => if q.name == r.name then r else q)).find?
        (fun q => q.name == n) = reg.find? (fun q => q.name == n) := by
  induction reg with
  | nil => rfl
  | cons q reg ih =>
    rw [List.map_cons, List.find?_cons, List.find?_cons]
    by_cases hq : q.name = r.name
    · rw [if_pos (beq_iff_eq.2 hq)]
      have h1 : (r.name == n) = false := by
        simp
        exact fun h => hn h.symm
      have h2 : (q.name == n) = false := by
        simp [hq]
        exact fun h => hn h.symm
      rw [h1, h2]
      exact ih
    · rw [if_neg (by simp [hq])]
      cases hpq : (q.name == n) with
      | true => rfl
      | false => exact ih

/-- Effect of one registration on lookup: the registered name now maps
to the new recognizer, every other name is untouched. -/
theorem register_find (reg : Registry) (r : Recognizer) (n : String) :
    findByName (register reg r) n =
      if n = r.name then some r else findByName reg n := by
  unfold register findByName
  by_cases ha : reg.any (fun q => q.name == r.name) = true
  · rw [if_pos ha]
    by_cases hn : n = r.name
    · rw [if_pos hn, hn]
      exact find_map_replace_self reg r ha
    · rw [if_neg hn]
      exact find_map_replace_other reg r n hn
  · rw [if_neg ha, List.find?_append]
    have hnone : ∀ x ∈ reg, (x.name == r.name) = false := by
      rw [Bool.not_eq_true] at ha
      exact fun x hx => by simpa using List.any_eq_false.1 ha x hx
    by_cases hn : n = r.name
    · rw [if_pos hn]
      have h1 : reg.find? (fun q => q.name == n) = none := by
        rw [List.find?_eq_none]
        intro x hx
        have := hnone x hx
        simp_all [hn]
      rw [h1, hn]
      simp [List.find?_cons]
    · rw [if_neg hn]
      have h2 : ([r].find? (fun q => q.name == n)) = none := by
        simp
        exact fun h => hn h.symm
      rw [h2, Option.or_none]

/-- Registration never changes the names other than possibly appending
the new one. -/
theorem register_names (reg : Registry) (r : Recognizer) :
    regNames (register reg r) =
      if reg.any (fun q => q.name == r.name) then regNames reg
      else regNames reg ++ [r.name] := by
  unfold register regNames
  by_cases ha : reg.any (fun q => q.name == r.name) = true
  · rw [if_pos ha, if_pos ha, List.map_map]
    refine List.map_congr_left ?_
    intro q _
    by_cases hq : q.name = r.name
    · simp [Function.comp, hq]
    · simp [Function.comp, hq]
  · rw [if_neg ha, if_neg ha, List.map_append]
    rfl

/-- Registration keeps the registry's names unique. -/
theorem register_nodup {reg : Registry} (r : Recognizer)
    (h : (regNames reg).Nodup) : (regNames (register reg r)).Nodup := by
  rw [register_names]
  by_cases ha : reg.any (fun q => q.name == r.name) = true
  · rwa [if_pos ha]
  · rw [if_neg ha]
    have hnone : ∀ x ∈ reg, (x.name == r.name) = false := by
      rw [Bool.not_eq_true] at ha
      exact fun x hx => by simpa using List.any_eq_false.1 ha x hx
    have hnotmem : r.name ∉ regNames reg := by
      intro hmem
      rcases List.mem_map.1 hmem with ⟨q, hq, hqe⟩
      have := hnone q hq
      simp [hqe] at this
    simp [List.nodup_append, h, hnotmem]

/-- The most recent registration carrying a given name in a sequence of
registrations. -/
def lastRegistered (n : String) (l : List Recognizer) : Option Recognizer :=
  (l.filter (fun r => r.name == n)).getLast?

/-- Lookup after a whole sequence of registrations: a name maps to its
most recent registration, or to its entry in the starting registry if
the sequence never registered it. -/
theorem registerAll_find (n : String) :
    ∀ (l : List Recognizer) (init : Registry),
      findByName (registerAll init l) n =
        (lastRegistered n l).or (findByName init n) := by
  intro l
  induction l with
  | nil =>
    intro init
    simp [registerAll, lastRegistered, List.foldl]
  | cons r l ih =>
    intro init
    have h1 : registerAll init (r :: l) = registerAll (register init r) l := rfl
    rw [h1, ih, register_find]
    unfold lastRegistered
    by_cases hr : r.name = n
    · rw [List.filter_cons_of_pos (by simp [hr])]
      rw [if_pos hr.symm]
      cases hfl : (l.filter (fun x => x.name == n)).getLast? with
      | none =>
        have hemp : l.filter (fun x => x.name == n) = [] :=
          List.getLast?_eq_none_iff.1 hfl
        rw [hemp]
        rfl
      | some x =>
        have hcons : (r :: l.filter (fun x => x.name == n)).getLast? = some x := by
          cases hsh : l.filter (fun x => x.name == n) with
          | nil => rw [hsh] at hfl; cases hfl
          | cons y ys =>
            rw [List.getLast?_cons_cons]
            rw [hsh] at hfl
            exact hfl
        rw [hcons]
        rfl
    · rw [List.filter_cons_of_neg (by simp [hr]), if_neg (fun h => hr h.symm)]

/-- A sequence of registrations keeps the registry's names unique. -/
theorem registerAll_nodup :
    ∀ (l : List Recognizer) (init : Registry),
      (regNames init).Nodup → (regNames (registerAll init l)).Nodup := by
  intro l
  induction l with
  | nil => intro init h; exact h
  | cons r l ih => intro init h; exact ih (register init r) (register_nodup r h)


/-- Every iteration of the `anonymize_dataframe` loop raises a Python
error: at best it survives the cell lookup and then hits the unbound
name `RecognizerResult`. -/
theorem anonymizeDataframeStep_error
    (rest : DataFrame → Finding → Except PyError DataFrame)
    (columns : List String) (dfSafe : DataFrame) (f : Finding) :
    ∃ e, anonymizeDataframeStep rest columns dfSafe f = .error e := by
  have hname : pythonName anonymizeDataframeScope "RecognizerResult" =
      .error .nameError := rfl
  unfold anonymizeDataframeStep
  split
  · next e _ => exact ⟨e, rfl⟩
  · next row _ =>
    split
    · next e _ => exact ⟨e, rfl⟩
    · next c _ =>
      refine ⟨.nameError, ?_⟩
      rw [hname]

/-- With a well-formed first finding the loop's first iteration reaches
the `RecognizerResult` construction and raises `NameError`. -/
theorem anonymizeDataframeStep_nameError
    (rest : DataFrame → Finding → Except PyError DataFrame)
    (columns : List String) (dfSafe : DataFrame) (f : Finding)
    (hrow : f.Row < dfSafe.rows.length) (hcol : f.Column ∈ columns) :
    anonymizeDataframeStep rest columns dfSafe f = .error .nameError := by
  have hname : pythonName anonymizeDataframeScope "RecognizerResult" =
      .error .nameError := rfl
  have hj : columns.findIdx? (fun c => c == f.Column) =
      some (columns.findIdx (fun c => c == f.Column)) :=
    List.findIdx?_eq_some_of_exists ⟨f.Column, hcol, beq_self_eq_true f.Column⟩
  unfold anonymizeDataframeStep
  split
  · next e heq =>
    exfalso
    unfold iloc at heq
    rw [List.getElem?_eq_getElem hrow] at heq
    simp at heq
  · next row _ =>
    split
    · next e heq2 =>
      exfalso
      unfold seriesGet at heq2
      rw [hj] at heq2
      simp at heq2
    · next c _ =>
      rw [hname]

/-- With at least one finding, the `anonymize_dataframe` loop raises an
error on its first iteration. -/
theorem anonymizeDataframeGo_error
    (rest : DataFrame → Finding → Except PyError DataFrame)
    (columns : List String) (dfSafe : DataFrame) (f : Finding)
    (fs : List Finding) :
    ∃ e, anonymizeDataframeGo rest columns dfSafe (f :: fs) = .error e := by
  rcases anonymizeDataframeStep_error rest columns dfSafe f with ⟨e, he⟩
  refine ⟨e, ?_⟩
  unfold anonymizeDataframeGo
  rw [he]

/-- With a well-formed first finding, `anonymize_dataframe` raises
`NameError` on the first iteration. -/
theorem anonymize_dataframe_nameError
    (rest : DataFrame → Finding → Except PyError DataFrame)
    (df : DataFrame) (f : Finding) (fs : List Finding)
    (hrow : f.Row < df.rows.length) (hcol : f.Column ∈ df.columns) :
    anonymize_dataframe rest df (f :: fs) = .error .nameError := by
  unfold anonymize_dataframe anonymizeDataframeGo
  rw [anonymizeDataframeStep_nameError rest df.columns df f hrow hcol]

/-- Every span the Analyzer outputs is non-degenerate when every
recognizer respects the Span invariant. -/
theorem analyze_valid {reg : Registry} {text : List Char}
    (hval : ∀ r ∈ reg, ∀ s ∈ r.detect text, validSpan text.length s) :
    ∀ s ∈ analyze_text reg text, s.start < s.stop := by
  intro s hs
  rcases analyze_mem hs with ⟨r, hr, hsr⟩
  exact (hval r hr s hsr).1

/-- Claim C1: for every text and every span sequence produced by
analyzing it, the redaction operation (`anonymize_text`) succeeds and
returns the string in which exactly each span's character range is
replaced by the placeholder token `[PII:<type>]`, while every character
of the text outside all span ranges appears byte-for-byte identical and
in order — the output is the interleaving of the untouched gap slices
of the original text with the spans' placeholders. -/
theorem claim_C1_redaction (reg : Registry) (text : List Char)
    (hval : ∀ r ∈ reg, ∀ s ∈ r.detect text, validSpan text.length s) :
    anonymize_text text (analyze_text reg text) =
      .ok (renderRedacted text (analyze_text reg text)) := by
  have hsorted := analyze_sorted reg text
  have hnoov := analyze_pairwise reg text
  have hv : ∀ s ∈ analyze_text reg text, s.start < s.stop :=
    analyze_valid hval
  have hchain : ChainOK 0 (analyze_text reg text) :=
    chainOK_of_sorted _ 0 hsorted hnoov hv (fun s _ => Nat.zero_le _)
  rw [renderRedacted_eq_renderFrom]
  exact redactGo_renders text _ 0 hchain

/-- Recognizer set of the spec's whitelist example, registered through
the source's `add_custom_whitelist`. -/
def schoolReg : Registry :=
  add_custom_whitelist [] "SCHOOL_ID" [chars "223j1ao5g"] (mkRat 4 5)

/-- Text of the spec's whitelist example. -/
def schoolText : List Char := chars "id: 223j1ao5g end"

/-- Witness for claim C1 at the concrete whitelist example. -/
theorem claim_C1_redaction_witness :
    (∀ r ∈ schoolReg, ∀ s ∈ r.detect schoolText,
        validSpan schoolText.length s) ∧
    anonymize_text schoolText (analyze_text schoolReg schoolText) =
      .ok (renderRedacted schoolText (analyze_text schoolReg schoolText)) :=
  ⟨by decide, claim_C1_redaction schoolReg schoolText (by decide)⟩

/-- Claim C2: for every span list satisfying the Span invariant, the
clusters the analysis computes are exactly the maximal clusters of
mutually overlapping spans — they partition the detected spans, any
two members of one cluster are linked by a chain of overlaps inside
the cluster, and spans of different clusters never overlap — and
conflict resolution retains exactly one span per cluster, one that
beats or ties every member of its cluster on score, then span length,
then earliest start offset, discarding all other spans of the cluster;
in particular `{A, 0-10, 0.9}` against `{B, 5-15, 0.95}` keeps only
`B`, and the equal-score pair `{A, 0-10, 0.9}` against
`{B, 0-12, 0.9}` keeps the longer `B`, through the full analysis
operation. -/
theorem claim_C2_conflict_resolution :
    (∀ spans : List Span, (∀ s ∈ spans, s.start < s.stop) →
      (clustersOf spans).flatten.Perm spans ∧
      (∀ c ∈ clustersOf spans, c ≠ []) ∧
      (∀ c ∈ clustersOf spans, ∀ a ∈ c, ∀ b ∈ c,
        Relation.ReflTransGen (linkedIn c) a b) ∧
      (clustersOf spans).Pairwise
        (fun c d => ∀ x ∈ c, ∀ y ∈ d, overlaps x y = false) ∧
      resolveConflicts spans = (clustersOf spans).map clusterBest ∧
      (∀ c ∈ clustersOf spans,
        clusterBest c ∈ c ∧ ∀ x ∈ c, prioLE (clusterBest c) x)) ∧
    analyze_text
      [modelBackedRecognizer "ner1" (fun _ => [⟨"A", 0, 10, mkRat 9 10⟩]),
        modelBackedRecognizer "ner2" (fun _ => [⟨"B", 5, 15, mkRat 19 20⟩])]
      [] = [⟨"B", 5, 15, mkRat 19 20⟩] ∧
    analyze_text
      [modelBackedRecognizer "ner1" (fun _ => [⟨"A", 0, 10, mkRat 9 10⟩]),
        modelBackedRecognizer "ner2" (fun _ => [⟨"B", 0, 12, mkRat 9 10⟩])]
      [] = [⟨"B", 0, 12, mkRat 9 10⟩] := by
  refine ⟨?_, by decide, by decide⟩
  intro spans hv
  refine ⟨clustersOf_flatten_perm spans, clustersOf_ne_nil spans,
    clustersOf_connected hv, clustersOf_sep_overlap spans, rfl, ?_⟩
  intro c hc
  exact ⟨clusterBest_mem (clustersOf_ne_nil spans c hc), clusterBest_le⟩

/-- A four-span chain: consecutive spans overlap, non-consecutive ones
do not, so the four spans form one single maximal cluster. -/
def chainSpans : List Span :=
  [⟨"A", 0, 10, mkRat 9 10⟩, ⟨"B", 8, 14, mkRat 1 2⟩,
    ⟨"C", 12, 18, mkRat 2 5⟩, ⟨"D", 16, 26, mkRat 4 5⟩]

/-- Witness for claim C2: the four-span chain forms one maximal
cluster, and conflict resolution retains exactly its highest-score
span, discarding the other three. -/
theorem claim_C2_witness :
    (∀ s ∈ chainSpans, s.start < s.stop) ∧
    ((clustersOf chainSpans).flatten.Perm chainSpans ∧
      (∀ c ∈ clustersOf chainSpans, c ≠ []) ∧
      (∀ c ∈ clustersOf chainSpans, ∀ a ∈ c, ∀ b ∈ c,
        Relation.ReflTransGen (linkedIn c) a b) ∧
      (clustersOf chainSpans).Pairwise
        (fun c d => ∀ x ∈ c, ∀ y ∈ d, overlaps x y = false) ∧
      resolveConflicts chainSpans =
        (clustersOf chainSpans).map clusterBest ∧
      (∀ c ∈ clustersOf chainSpans,
        clusterBest c ∈ c ∧ ∀ x ∈ c, prioLE (clusterBest c) x)) ∧
    resolveConflicts chainSpans = [⟨"A", 0, 10, mkRat 9 10⟩] :=
  ⟨by decide, claim_C2_conflict_resolution.1 chainSpans (by decide),
    by decide⟩

/-- Claim C3: the span sequence returned by the Analyzer contains no
two intersecting spans and is sorted ascending by start offset. -/
theorem claim_C3_analyzer_invariants (reg : Registry) (text : List Char) :
    (analyze_text reg text).Pairwise (fun a b => overlaps a b = false) ∧
    (analyze_text reg text).Pairwise (fun a b => a.start ≤ b.start) :=
  ⟨analyze_pairwise reg text, analyze_sorted reg text⟩

/-- One-column, one-row table holding an email address. -/
def dfC4 : DataFrame := ⟨["email"], [[some (chars "a@x.com")]]⟩

/-- A well-formed finding for the email cell of `dfC4`. -/
def findingC4 : Finding :=
  ⟨"email", 0, "EMAIL_ADDRESS", chars "a@x.com", mkRat 17 20, 0, 7⟩

/-- Claim C4: `anonymize_dataframe` was claimed to return a sanitized
fresh copy with only PII cells altered, but on any table with a finding
it raises `NameError` instead of returning a table (the unbound
`RecognizerResult` slip of claim C5); only with an empty findings table
does it return, and then it returns the unaltered copy.  The `rest`
continuation (the unreachable tail of the loop body) is instantiated
arbitrarily here; claim C5's theorem shows the result for every
continuation. -/
theorem claim_C4_frame_bug :
    anonymize_dataframe (fun d _ => .ok d) dfC4 [findingC4] =
      .error .nameError ∧
    anonymize_dataframe (fun d _ => .ok d) dfC4 [] = .ok dfC4 :=
  ⟨rfl, rfl⟩

/-- Claim C5: for every DataFrame and every non-empty findings table,
`anonymize_dataframe` raises an error before producing a table — and
with a well-formed first finding that error is precisely `NameError`,
raised at the `RecognizerResult` construction, a name neither imported
nor defined anywhere in the module; so tabular sanitization can never
return a sanitized table when at least one finding exists. -/
theorem claim_C5_nameError :
    (∀ (rest : DataFrame → Finding → Except PyError DataFrame)
        (df : DataFrame) (results : List Finding), results ≠ [] →
        ∀ out, anonymize_dataframe rest df results ≠ .ok out) ∧
    (∀ (rest : DataFrame → Finding → Except PyError DataFrame)
        (df : DataFrame) (f : Finding) (fs : List Finding),
        f.Row < df.rows.length → f.Column ∈ df.columns →
        anonymize_dataframe rest df (f :: fs) = .error .nameError) := by
  constructor
  · intro rest df results hne out
    cases results with
    | nil => exact absurd rfl hne
    | cons f fs =>
      rcases anonymizeDataframeGo_error rest df.columns df f fs with ⟨e, he⟩
      intro hok
      have hcontra : Except.error (α := DataFrame) e = .ok out := by
        rw [← he]
        exact hok
      cases hcontra
  · intro rest df f fs hrow hcol
    exact anonymize_dataframe_nameError rest df f fs hrow hcol

/-- Witness for claim C5 at the concrete one-cell email table. -/
theorem claim_C5_witness :
    anonymize_dataframe (fun d _ => .ok d) dfC4 [findingC4] =
      .error .nameError ∧
    ∀ out, anonymize_dataframe (fun d _ => .ok d) dfC4 [findingC4] ≠
      .ok out :=
  ⟨claim_C5_nameError.2 _ dfC4 findingC4 [] (by decide) (by decide),
    claim_C5_nameError.1 _ dfC4 [findingC4] (by simp)⟩

/-- Claim C6: after registering the whitelist recognizer `SCHOOL_ID`
with example `223j1ao5g` through `add_custom_whitelist`, analyzing
`id: 223j1ao5g end` yields exactly one span, of type `SCHOOL_ID`,
covering exactly the occurrence of the example (offsets 4 to 13); and
in general a whitelist recognizer emits one span per occurrence of any
listed string: the span for offset `i` is emitted iff the word occurs
at `i`. -/
theorem claim_C6_whitelist :
    analyze_text schoolReg schoolText =
      [⟨"SCHOOL_ID", 4, 13, mkRat 4 5⟩] ∧
    ∀ (name : String) (w text : List Char) (score : ℚ) (i : Nat),
      ((⟨name, i, i + w.length, score⟩ : Span) ∈
          whitelistDetect name [w] score text) ↔
        (matchAt text i w = true ∧ i ≤ text.length) := by
  refine ⟨by decide, ?_⟩
  intro name w text score i
  constructor
  · intro h
    simp only [whitelistDetect, List.map_cons, List.map_nil,
      List.flatten_cons, List.flatten_nil, List.append_nil,
      List.mem_map, occurrences, List.mem_filter, List.mem_range] at h
    rcases h with ⟨j, ⟨hj1, hj2⟩, hj3⟩
    have hji : j = i := congrArg Span.start hj3
    subst hji
    exact ⟨hj2, by omega⟩
  · intro h
    simp only [whitelistDetect, List.map_cons, List.map_nil,
      List.flatten_cons, List.flatten_nil, List.append_nil,
      List.mem_map, occurrences, List.mem_filter, List.mem_range]
    exact ⟨i, ⟨by omega, h.1⟩, rfl⟩

/-- A registry holding one whitelist recognizer that detects the email
address `a@x.com` (the per-cell analysis engine for the tabular
claims). -/
def emailRegistry : Registry :=
  [whitelistRecognizer "EMAIL_ADDRESS" [chars "a@x.com"] (mkRat 4 5)]

/-- The per-cell analysis function handed to `analyze_dataframe` in the
tabular claims. -/
def emailCellAnalyze (t : List Char) : List Span :=
  analyze_text emailRegistry t

/-- A one-column table whose first cell is missing and whose second
cell (input row 1) holds the email address. -/
def dfNullFirst : DataFrame :=
  ⟨["email"], [[none], [some (chars "a@x.com")]]⟩

/-- The claim's own two-row example table. -/
def dfEmailExample : DataFrame :=
  ⟨["email"], [[some (chars "a@x.com")], [some (chars "none")]]⟩

/-- Claim C7: on the claim's own example table `analyze_dataframe`
emits exactly one Finding tagged `Row = 0` as stated, but on a table
whose first cell is missing the sole Finding — which originates from
the cell in input row 1 — is also tagged `Row = 0`: the code
enumerates positions within the column's `dropna()` result, not the
row identifier of the originating cell, refuting the general
row-provenance statement. -/
theorem claim_C7_row_mistag :
    analyze_dataframe emailCellAnalyze dfNullFirst =
      [⟨"email", 0, "EMAIL_ADDRESS", chars "a@x.com", mkRat 4 5, 0, 7⟩] ∧
    analyze_dataframe emailCellAnalyze dfEmailExample =
      [⟨"email", 0, "EMAIL_ADDRESS", chars "a@x.com", mkRat 4 5, 0, 7⟩] :=
  ⟨by decide, by decide⟩

/-- Claim C8 counterexample: registering a whitelist rule whose
whitelist is EMPTY — malformed registration input in the claim's
terms — does not fail with any error and does not leave the registry
unchanged: the rule is registered anyway. -/
theorem claim_C8_counterexample :
    add_custom_whitelist [] "X" [] (mkRat 4 5) ≠ [] := by
  unfold add_custom_whitelist register
  simp

/-- Claim C8 (amended): `add_custom_regex` and `add_custom_whitelist`
perform no validation at all and cannot fail: for every input —
including an empty name, an arbitrary (never-compiled) pattern string,
and an empty whitelist — the rule is built and registered, and the
registry afterwards maps the rule's name to it. -/
theorem claim_C8_no_validation :
    ∀ (reg : Registry) (name : String) (wl : List (List Char))
      (pat : String) (score : ℚ)
      (rd : String → ℚ → List Char → List Span),
      findByName (add_custom_whitelist reg name wl score) name =
        some (whitelistRecognizer name wl score) ∧
      findByName (add_custom_regex reg name pat score rd) name =
        some ⟨name, rd pat score⟩ := by
  intro reg name wl pat score rd
  constructor
  · unfold add_custom_whitelist
    rw [register_find]
    simp [whitelistRecognizer]
  · unfold add_custom_regex
    rw [register_find]
    simp

/-- Claim C9: the Redactor (`anonymize_text`) fails with
`OverlappingSpanError` whenever the spans' start offsets are out of
ascending order or two span ranges overlap (spans being non-degenerate
per the Span invariant). -/
theorem claim_C9_overlap_error (text : List Char) (spans : List Span)
    (hv : ∀ s ∈ spans, s.start < s.stop)
    (hbad : ¬ spans.Pairwise (fun a b => a.start ≤ b.start) ∨
      ¬ spans.Pairwise (fun a b => overlaps a b = false)) :
    anonymize_text text spans = .error .overlappingSpanError := by
  cases hres : anonymize_text text spans with
  | ok out =>
    exfalso
    have hchain : ChainOK 0 spans := redactGo_ok_chainOK text spans 0 out hres
    have hsep := chainOK_pairwise_sep spans 0 hchain hv
    rcases hbad with hb | hb
    · refine hb (List.Pairwise.imp_of_mem ?_ hsep)
      intro a b ha _ hr
      have := hv a ha
      omega
    · exact hb (hsep.imp (fun h => overlaps_eq_false_of_sep h))
  | error e =>
    cases e
    rfl

/-- Out-of-order span pair used to witness claim C9. -/
def badSpans : List Span :=
  [⟨"A", 3, 5, mkRat 1 1⟩, ⟨"B", 0, 2, mkRat 1 1⟩]

/-- Witness for claim C9 at a concrete out-of-order span pair. -/
theorem claim_C9_witness :
    (∀ s ∈ badSpans, s.start < s.stop) ∧
    (¬ badSpans.Pairwise (fun a b => a.start ≤ b.start)) ∧
    anonymize_text (chars "hello") badSpans =
      .error .overlappingSpanError :=
  ⟨by decide, by decide,
    claim_C9_overlap_error (chars "hello") badSpans (by decide)
      (Or.inl (by decide))⟩

/-- Claim C10: starting from any registry with unique names, any
sequence of registrations leaves the registry with at most one
recognizer per name, and each name maps to its most recent
registration (or to its starting entry if the sequence never
registered that name). -/
theorem claim_C10_registry_overwrite (init : Registry)
    (l : List Recognizer) (h : (regNames init).Nodup) :
    (regNames (registerAll init l)).Nodup ∧
    ∀ n, findByName (registerAll init l) n =
      (lastRegistered n l).or (findByName init n) :=
  ⟨registerAll_nodup l init h, fun n => registerAll_find n l init⟩

/-- Two recognizers sharing the name `X`, re-registered in sequence. -/
def recognizerX1 : Recognizer := modelBackedRecognizer "X" (fun _ => [])

/-- The second recognizer named `X`. -/
def recognizerX2 : Recognizer := whitelistRecognizer "X" [chars "x"] (mkRat 1 1)

/-- Witness for claim C10: re-registering the name `X` overwrites. -/
theorem claim_C10_witness :
    (regNames ([] : Registry)).Nodup ∧
    ((regNames (registerAll [] [recognizerX1, recognizerX2])).Nodup ∧
      ∀ n, findByName (registerAll [] [recognizerX1, recognizerX2]) n =
        (lastRegistered n [recognizerX1, recognizerX2]).or
          (findByName [] n)) :=
  ⟨by simp [regNames],
    claim_C10_registry_overwrite [] [recognizerX1, recognizerX2]
      (by simp [regNames])⟩
